import Mathlib

/-!
Verification of the migration-chain builder and validator of
`alembic_check/check_migrations.py`.

A Python `Dict[str, Optional[str]]` (insertion-ordered, unique keys) is
embedded as an association list `Chain := List (String × Option String)`
kept in insertion order; uniqueness of keys is the well-formedness
predicate `WF`.  Every function below is translated line by line from the
source file: `validateMigrationChain` from `validate_migration_chain`
(including the truthiness test `if down` on line 131 and the truthiness
test `if cycle` on line 156), `checkCycleAux` from the inner `check_cycle`
while-loop (with explicit fuel; the fuel bound is proved sufficient),
and `buildMigrationChainAux` from the insertion loop of
`build_migration_chain`.
-/

/-- A migration chain: the insertion-ordered content of the Python dict
mapping revision ids to their `down_revision` (`none` = initial). -/
abbrev Chain := List (String × Option String)

/-- The keys of the mapping, in insertion order (`migrations.keys()`). -/
def keys (m : Chain) : List String := m.map Prod.fst

/-- Well-formedness of the embedding: a Python dict has unique keys. -/
def WF (m : Chain) : Prop := (keys m).Nodup

/-- `migrations.get(current)`: `none` when the key is absent or when the
stored value is itself `None`, otherwise the stored revision id. -/
def chainStep (m : Chain) (c : String) : Option String :=
  (List.lookup c m).join

/-- The error taxonomy of `alembic_check/exceptions.py`, each constructor
carrying the message string built at the raise site. -/
inductive MigrationError where
  | migrationFileError (msg : String)
  | duplicateRevisionError (msg : String)
  | multipleInitialMigrationsError (msg : String)
  | missingDownRevisionError (msg : String)
  | circularDependencyError (msg : String)
  | duplicateDownRevisionError (msg : String)
deriving DecidableEq, Repr

/-- Python string `<`: lexicographic comparison of the code-point
sequences (core `List.lt` on `String.data`, which the kernel evaluates). -/
def strLt (a b : String) : Prop := List.lt a.data b.data

instance : DecidableRel strLt := fun a b => List.hasDecidableLt a.data b.data

/-- `strLt` agrees with the ambient linear order on `String`. -/
theorem strLt_iff (a b : String) : strLt a b ↔ a < b := by
  rw [String.lt_iff_toList_lt]
  unfold strLt String.toList
  exact List.lt_iff_lex_lt a.data b.data

/-- Python string `<=`. -/
def strLe (a b : String) : Prop := ¬ strLt b a

instance : DecidableRel strLe := fun _ _ => instDecidableNot

/-- `strLe` agrees with the ambient linear order on `String`. -/
theorem strLe_iff (a b : String) : strLe a b ↔ a ≤ b := by
  unfold strLe
  rw [strLt_iff, not_lt]

/-- Ordering of dict items by key, used by `sorted(migrations.items(), key=lambda x: x[0])`. -/
def keyLe (a b : String × Option String) : Prop := strLe a.1 b.1

instance : DecidableRel keyLe := fun a b => inferInstanceAs (Decidable (strLe a.1 b.1))

instance : IsTotal (String × Option String) keyLe :=
  ⟨fun a b => by
    unfold keyLe
    rw [strLe_iff, strLe_iff]
    exact le_total a.1 b.1⟩

instance : IsTrans (String × Option String) keyLe :=
  ⟨fun a b c h1 h2 => by
    unfold keyLe at *
    rw [strLe_iff] at *
    exact le_trans h1 h2⟩

/-- `sorted_migrations`: the items sorted in ascending key order (Python's
`sorted` is a stable comparison sort, as is insertion sort). -/
def sortedChain (m : Chain) : Chain := List.insertionSort keyLe m

/-- `initial_migrations`: revisions of the sorted items whose
`down_revision` is `None`. -/
def initialMigrations (m : Chain) : List String :=
  ((sortedChain m).filter (fun p => p.2.isNone)).map Prod.fst

/-- The test on line 131, `down and down not in migrations.keys()`:
Python truthiness makes both `None` and the empty string fail the first
conjunct. -/
def isDangling (m : Chain) (p : String × Option String) : Bool :=
  match p.2 with
  | none => false
  | some d => !(d == "") && !((keys m).contains d)

/-- The first sorted item (if any) that triggers the missing-`down_revision`
check on lines 130-134. -/
def findDangling (m : Chain) : Option (String × Option String) :=
  (sortedChain m).find? (isDangling m)

/-- The while-loop of `check_cycle`, with explicit fuel.  The outer `none`
result means fuel ran out (proved unreachable for the fuel used below);
`some none` means the walk ended at a root, `some (some cyc)` means a node
was revisited and `path[path.index(current):] + [current]` is returned. -/
def checkCycleAux (m : Chain) : Nat → List String → Option String → Option (Option (List String))
  | _, _, none => some none
  | 0, _, some _ => none
  | fuel+1, path, some c =>
    if c ∈ path then
      some (some (path.dropWhile (fun x => !(x == c)) ++ [c]))
    else
      checkCycleAux m fuel (path ++ [c]) (chainStep m c)

/-- `check_cycle(start_revision)`: run the walk with sufficient fuel. -/
def checkCycle (m : Chain) (start : String) : Option (List String) :=
  (checkCycleAux m (m.length + 1) [] (some start)).getD none

/-- The loop on lines 154-159: the first revision (dict order) whose walk
reports a truthy (non-empty) cycle list. -/
def findCycle (m : Chain) : Option (List String) :=
  m.findSome? (fun p =>
    match checkCycle m p.1 with
    | some cyc => if cyc.isEmpty then none else some cyc
    | none => none)

/-- `down_revisions.setdefault(down, []).append(rev)` on an
insertion-ordered dict of lists. -/
def addGroup (acc : List (String × List String)) (d : String) (r : String) :
    List (String × List String) :=
  match acc with
  | [] => [(d, [r])]
  | (d0, rs) :: rest =>
      if d0 = d then (d0, rs ++ [r]) :: rest else (d0, rs) :: addGroup rest d r

/-- One iteration of the grouping loop body on lines 163-165. -/
def groupStep (acc : List (String × List String)) (p : String × Option String) :
    List (String × List String) :=
  match p.2 with
  | some d => addGroup acc d p.1
  | none => acc

/-- The grouping loop on lines 162-165: revisions grouped by their
non-`None` `down_revision`, scanning the sorted items. -/
def downGroups (m : Chain) : List (String × List String) :=
  (sortedChain m).foldl groupStep []

/-- The revisions whose `down_revision` equals `some d`, in the order they
occur in `l`. -/
def sharersIn (l : Chain) (d : String) : List String :=
  (l.filter (fun p => p.2 == some d)).map Prod.fst

/-- The loop on lines 167-172: the first group with more than one sharer. -/
def findDupGroup (m : Chain) : Option (String × List String) :=
  (downGroups m).find? (fun g => decide (1 < g.2.length))

/-- `validate_migration_chain` (lines 101-174): four staged checks run in
order, raising (returning `.error`) at the first violation. -/
def validateMigrationChain (migrations : Chain) : Except MigrationError Unit :=
  if migrations.isEmpty then .ok ()
  else if 1 < (initialMigrations migrations).length then
    .error (.multipleInitialMigrationsError
      ("Multiple initial migrations found (with None as down_revision): " ++
        String.intercalate ", " (initialMigrations migrations)))
  else
    match findDangling migrations with
    | some p =>
        .error (.missingDownRevisionError
          ("Migration '" ++ p.1 ++ "' points to non-existent revision '" ++
            p.2.getD "" ++ "'"))
    | none =>
        match findCycle migrations with
        | some cyc =>
            .error (.circularDependencyError
              ("Circular dependency found: " ++ String.intercalate " -> " cyc))
        | none =>
            match findDupGroup migrations with
            | some g =>
                .error (.duplicateDownRevisionError
                  ("Multiple migrations have the same down_revision '" ++ g.1 ++
                    "': " ++ String.intercalate ", " g.2))
            | none => .ok ()

/-- Rendering of an `Optional[str]` inside an f-string: `None` or the string. -/
def optStr : Option String → String
  | none => "None"
  | some s => s

/-- The insertion loop of `build_migration_chain` (lines 80-98), consuming
the per-file `(revision, down_revision)` pairs in order. -/
def buildMigrationChainAux (acc : Chain) :
    List (String × Option String) → Except MigrationError Chain
  | [] => .ok acc
  | (revision, down) :: rest =>
    if revision ∈ keys acc then
      .error (.duplicateRevisionError ("Duplicate revision '" ++ revision ++ "' found."))
    else if down ∈ acc.map Prod.snd then
      .error (.duplicateDownRevisionError
        ("Duplicate down_revision '" ++ optStr down ++ "' found."))
    else
      buildMigrationChainAux (acc ++ [(revision, down)]) rest

/-- `build_migration_chain`, abstracted over the already-parsed sequence of
`(revision, down_revision)` pairs in directory-enumeration order. -/
def buildMigrationChain (pairs : List (String × Option String)) :
    Except MigrationError Chain :=
  buildMigrationChainAux [] pairs

/-- Iterated predecessor step: `stepN m n c` follows `migrations.get` n
times starting from `c` (`none` once the walk leaves the keys or hits a
root). -/
def stepN (m : Chain) : Nat → String → Option String
  | 0, c => some c
  | n+1, c => (stepN m n c).bind (chainStep m)

/-- Specification-level predicates about a chain, used to state the claims. -/
def countRoots (m : Chain) : Nat := (m.filter (fun p => p.2.isNone)).length

/-- Some entry fails the (truthiness-aware) dangling check of line 131. -/
def hasDangling (m : Chain) : Prop := ∃ p ∈ m, isDangling m p = true

/-- Two distinct revisions share one and the same non-`None` predecessor. -/
def hasDuplicateDown (m : Chain) : Prop :=
  ∃ p ∈ m, ∃ q ∈ m, p.1 ≠ q.1 ∧ p.2.isSome = true ∧ p.2 = q.2

/-- Every non-`None` predecessor value is itself a key of the mapping. -/
def linksResolve (m : Chain) : Prop :=
  ∀ p ∈ m, p.2 = none ∨ ∃ d, d ∈ keys m ∧ p.2 = some d

/-- A predecessor cycle, phrased with bounded iteration so that it is
decidable: some key returns to itself in at most `m.length` steps. -/
def hasCycleIn (m : Chain) : Prop :=
  ∃ p ∈ m, ∃ n ∈ List.range m.length, stepN m (n + 1) p.1 = some p.1

/-- An explicit predecessor cycle: a nonempty list of revisions each of
which steps to the (cyclically) next one. -/
def IsCycle (m : Chain) (C : List String) : Prop :=
  C ≠ [] ∧ ∀ i (h : i < C.length),
    chainStep m (C.get ⟨i, h⟩) =
      some (C.get ⟨(i + 1) % C.length, Nat.mod_lt _ (Nat.zero_lt_of_lt h)⟩)

instance (m : Chain) (C : List String) : Decidable (IsCycle m C) := by
  unfold IsCycle
  exact instDecidableAnd

/-- A set of revisions closed under the predecessor step; the workhorse
for completeness of the cycle walk. -/
def CycleClosed (m : Chain) (S : List String) : Prop :=
  ∀ c ∈ S, ∃ d, chainStep m c = some d ∧ d ∈ S

instance (m : Chain) : Decidable (WF m) := by
  unfold WF
  infer_instance

instance (m : Chain) : Decidable (hasDangling m) := by
  unfold hasDangling
  infer_instance

instance (m : Chain) : Decidable (hasDuplicateDown m) := by
  unfold hasDuplicateDown
  infer_instance

instance (m : Chain) : Decidable (linksResolve m) := by
  unfold linksResolve
  infer_instance

instance (m : Chain) : Decidable (hasCycleIn m) := by
  unfold hasCycleIn
  infer_instance

example : validateMigrationChain [("A", none), ("B", some "A"), ("C", some "B")] = .ok () := by
  rfl

example : validateMigrationChain [("A", none), ("B", some "A"), ("C", some "A")] =
    .error (.duplicateDownRevisionError
      "Multiple migrations have the same down_revision 'A': B, C") := by
  rfl

example : validateMigrationChain [("A", none), ("B", some "X")] =
    .error (.missingDownRevisionError
      "Migration 'B' points to non-existent revision 'X'") := by
  rfl

example : validateMigrationChain [("A", none), ("B", some "C"), ("C", some "B")] =
    .error (.circularDependencyError "Circular dependency found: B -> C -> B") := by
  rfl

example : validateMigrationChain [("A", none), ("B", none)] =
    .error (.multipleInitialMigrationsError
      "Multiple initial migrations found (with None as down_revision): A, B") := by
  rfl

example : validateMigrationChain [] = .ok () := by rfl

example : validateMigrationChain [("A", some "")] = .ok () := by rfl

example : buildMigrationChain [("A", none), ("B", none)] =
    .error (.duplicateDownRevisionError "Duplicate down_revision 'None' found.") := by
  rfl

/-! Basic facts about the sorted view of the chain. -/

theorem sortedChain_perm (m : Chain) : List.Perm (sortedChain m) m :=
  List.perm_insertionSort keyLe m

theorem sortedChain_sorted (m : Chain) : (sortedChain m).Pairwise keyLe :=
  List.sorted_insertionSort keyLe m

theorem mem_sortedChain {m : Chain} {p : String × Option String} :
    p ∈ sortedChain m ↔ p ∈ m :=
  (sortedChain_perm m).mem_iff

theorem sortedChain_keys_nodup {m : Chain} (h : WF m) :
    (keys (sortedChain m)).Nodup :=
  ((sortedChain_perm m).map Prod.fst).nodup_iff.mpr h

/-! Facts about keys and `migrations.get`. -/

theorem mem_keys_iff {m : Chain} {c : String} : c ∈ keys m ↔ ∃ d, (c, d) ∈ m := by
  unfold keys
  rw [List.mem_map]
  constructor
  · rintro ⟨p, hp, rfl⟩
    exact ⟨p.2, by simpa using hp⟩
  · rintro ⟨d, hd⟩
    exact ⟨(c, d), hd, rfl⟩

theorem lookup_eq_none_of {m : Chain} {c : String} (h : c ∉ keys m) :
    List.lookup c m = none := by
  induction m with
  | nil => rfl
  | cons p rest ih =>
    obtain ⟨p1, p2⟩ := p
    simp only [keys, List.map_cons, List.mem_cons, not_or] at h
    have hbeq : (c == p1) = false := beq_eq_false_iff_ne.mpr h.1
    rw [List.lookup_cons, hbeq]
    exact ih (by simpa [keys] using h.2)

theorem mem_keys_of_lookup {m : Chain} {c : String} {v : Option String}
    (h : List.lookup c m = some v) : c ∈ keys m := by
  by_contra hc
  rw [lookup_eq_none_of hc] at h
  cases h

theorem chainStep_mem_keys {m : Chain} {c d : String} (h : chainStep m c = some d) :
    c ∈ keys m := by
  unfold chainStep at h
  cases hl : List.lookup c m with
  | none => rw [hl] at h; cases h
  | some v => exact mem_keys_of_lookup hl

/-! Small list helpers. -/

theorem two_mem_length {α : Type} {l : List α} {a b : α}
    (ha : a ∈ l) (hb : b ∈ l) (hne : a ≠ b) : 2 ≤ l.length := by
  match l with
  | [] => cases ha
  | [x] =>
    simp only [List.mem_singleton] at ha hb
    exact absurd (ha.trans hb.symm) hne
  | x :: y :: t => simp [List.length_cons]

theorem length_two_split {α : Type} {l : List α} (h : 2 ≤ l.length) :
    ∃ a b t, l = a :: b :: t := by
  match l with
  | [] => simp at h
  | [x] => simp at h
  | a :: b :: t => exact ⟨a, b, t, rfl⟩

/-! Stage 1: multiple initial migrations. -/

theorem initialMigrations_length (m : Chain) :
    (initialMigrations m).length = countRoots m := by
  unfold initialMigrations countRoots
  rw [List.length_map]
  exact ((sortedChain_perm m).filter _).length_eq

theorem mem_initialMigrations {m : Chain} {r : String} :
    r ∈ initialMigrations m ↔ (r, none) ∈ m := by
  unfold initialMigrations
  rw [List.mem_map]
  constructor
  · rintro ⟨p, hp, rfl⟩
    rw [List.mem_filter] at hp
    have h2 : p.2 = none := Option.isNone_iff_eq_none.mp hp.2
    have hm : p ∈ m := mem_sortedChain.mp hp.1
    have : p = (p.1, none) := by
      cases p
      simp_all
    rw [this] at hm
    exact hm
  · intro h
    exact ⟨(r, none), List.mem_filter.mpr ⟨mem_sortedChain.mpr h, rfl⟩, rfl⟩

theorem initialMigrations_sorted {m : Chain} (h : WF m) :
    (initialMigrations m).Pairwise (· < ·) := by
  have hf : ((sortedChain m).filter (fun p => p.2.isNone)).Pairwise keyLe :=
    (sortedChain_sorted m).sublist (List.filter_sublist _)
  have hle : (initialMigrations m).Pairwise (· ≤ ·) := by
    unfold initialMigrations
    rw [List.pairwise_map]
    exact hf.imp (fun hab => (strLe_iff _ _).mp hab)
  have hn : (initialMigrations m).Nodup := by
    unfold initialMigrations
    have hsub : List.Sublist (((sortedChain m).filter (fun p => p.2.isNone)).map Prod.fst)
        ((sortedChain m).map Prod.fst) :=
      (List.filter_sublist _).map _
    exact hsub.nodup (sortedChain_keys_nodup h)
  refine (hle.and hn).imp ?_
  intro a b hab
  exact lt_of_le_of_ne hab.1 hab.2

/-! Stage 2: dangling predecessors. -/

theorem isDangling_iff {m : Chain} {p : String × Option String} :
    isDangling m p = true ↔ ∃ d, p.2 = some d ∧ d ≠ "" ∧ d ∉ keys m := by
  obtain ⟨r, d⟩ := p
  unfold isDangling
  cases d with
  | none => simp
  | some d => simp [List.contains, List.elem_eq_mem]

theorem findDangling_eq_none_iff {m : Chain} :
    findDangling m = none ↔ ¬ hasDangling m := by
  unfold findDangling hasDangling
  rw [List.find?_eq_none]
  constructor
  · rintro h ⟨p, hp, hd⟩
    exact h p (mem_sortedChain.mpr hp) hd
  · intro h p hp hd
    exact h ⟨p, mem_sortedChain.mp hp, hd⟩

theorem find?_min_key {l : Chain} (hs : l.Pairwise keyLe) {f : String × Option String → Bool}
    {p : String × Option String} (hf : l.find? f = some p) :
    ∀ q ∈ l, f q = true → p.1 ≤ q.1 := by
  induction l with
  | nil => cases hf
  | cons a t ih =>
    rw [List.find?_cons] at hf
    cases hfa : f a with
    | true =>
      rw [hfa] at hf
      have hap : a = p := Option.some.inj hf
      intro q hq hfq
      rcases List.mem_cons.mp hq with rfl | hq
      · rw [← hap]
      · rw [← hap]
        exact (strLe_iff _ _).mp ((List.pairwise_cons.mp hs).1 q hq)
    | false =>
      rw [hfa] at hf
      intro q hq hfq
      rcases List.mem_cons.mp hq with rfl | hq
      · rw [hfa] at hfq; cases hfq
      · exact ih (List.pairwise_cons.mp hs).2 hf q hq hfq

/-! Stage 3: the cycle walk.  `stepRel` is one predecessor step. -/

def stepRel (m : Chain) (a b : String) : Prop := chainStep m a = some b

theorem filter_length_mono {α : Type} {p q : α → Bool} (l : List α)
    (h : ∀ x, q x = true → p x = true) :
    (l.filter q).length ≤ (l.filter p).length := by
  induction l with
  | nil => simp
  | cons a t ih =>
    simp only [List.filter_cons]
    by_cases hq : q a = true
    · rw [if_pos hq, if_pos (h a hq)]
      simp only [List.length_cons]
      exact Nat.succ_le_succ ih
    · rw [if_neg hq]
      by_cases hp : p a = true
      · rw [if_pos hp]
        exact Nat.le_succ_of_le ih
      · rw [if_neg hp]
        exact ih

theorem filter_length_strict {L path : List String} {c : String}
    (hcL : c ∈ L) (hcp : c ∉ path) :
    (L.filter (fun k => decide (k ∉ path ++ [c]))).length <
      (L.filter (fun k => decide (k ∉ path))).length := by
  have himp : ∀ x : String, decide (x ∉ path ++ [c]) = true → decide (x ∉ path) = true := by
    intro x hx
    simp only [decide_eq_true_iff, List.mem_append] at *
    exact fun hmem => hx (Or.inl hmem)
  induction L with
  | nil => cases hcL
  | cons a t ih =>
    simp only [List.filter_cons]
    by_cases hac : a = c
    · subst hac
      rw [if_neg (by simp), if_pos (by simpa using hcp)]
      simp only [List.length_cons]
      exact Nat.lt_succ_of_le (filter_length_mono t himp)
    · have hct : c ∈ t := by
        rcases List.mem_cons.mp hcL with h1 | h1
        · exact absurd h1.symm hac
        · exact h1
      by_cases hap : a ∈ path
      · rw [if_neg (by simp [hap]), if_neg (by simp [hap])]
        exact ih hct
      · rw [if_pos (by simp [hap, hac]), if_pos (by simpa using hap)]
        simp only [List.length_cons]
        exact Nat.succ_lt_succ (ih hct)

theorem checkCycleAux_isSome (m : Chain) :
    ∀ fuel (path : List String) (cur : Option String),
      ((keys m).filter (fun k => decide (k ∉ path))).length < fuel →
      (checkCycleAux m fuel path cur).isSome = true := by
  intro fuel
  induction fuel with
  | zero => intro path cur h; omega
  | succ f ih =>
    intro path cur h
    cases cur with
    | none => rfl
    | some c =>
      simp only [checkCycleAux]
      by_cases hc : c ∈ path
      · simp [hc]
      · rw [if_neg hc]
        by_cases hk : c ∈ keys m
        · refine ih _ _ (lt_of_lt_of_le (filter_length_strict hk hc) ?_)
          exact Nat.lt_succ_iff.mp h
        · have hstep : chainStep m c = none := by
            unfold chainStep
            rw [lookup_eq_none_of hk]
            rfl
          rw [hstep]
          simp [checkCycleAux]

theorem dropWhile_head_eq {path : List String} {c : String} (h : c ∈ path) :
    ∃ t, path.dropWhile (fun x => !(x == c)) = c :: t := by
  induction path with
  | nil => cases h
  | cons a t ih =>
    by_cases hac : a = c
    · subst hac
      exact ⟨t, by simp [List.dropWhile_cons]⟩
    · have hct : c ∈ t := by
        rcases List.mem_cons.mp h with h1 | h1
        · exact absurd h1.symm hac
        · exact h1
      obtain ⟨t2, ht⟩ := ih hct
      exact ⟨t2, by simp [List.dropWhile_cons, hac, ht]⟩

theorem chain'_mem_keys {m : Chain} :
    ∀ {l : List String}, List.Chain' (stepRel m) l → ∀ x ∈ l.dropLast, x ∈ keys m := by
  intro l
  induction l with
  | nil => intro _ x hx; cases hx
  | cons a t ih =>
    intro h x hx
    cases t with
    | nil => cases hx
    | cons b t2 =>
      rw [List.chain'_cons] at h
      rcases List.mem_cons.mp (by simpa [List.dropLast] using hx) with rfl | hx2
      · exact chainStep_mem_keys h.1
      · exact ih h.2 x hx2

theorem checkCycleAux_sound (m : Chain) :
    ∀ fuel (path : List String) (cur : Option String) (cyc : List String),
      path.Nodup →
      List.Chain' (stepRel m) path →
      (∀ x, path.getLast? = some x → chainStep m x = cur) →
      checkCycleAux m fuel path cur = some (some cyc) →
      2 ≤ cyc.length ∧ cyc.head? = cyc.getLast? ∧
        List.Chain' (stepRel m) cyc ∧ cyc.dropLast.Nodup := by
  intro fuel
  induction fuel with
  | zero =>
    intro path cur cyc _ _ _ heq
    cases cur with
    | none => simp [checkCycleAux] at heq
    | some c => simp [checkCycleAux] at heq
  | succ f ih =>
    intro path cur cyc hnd hch hlast heq
    cases cur with
    | none => simp [checkCycleAux] at heq
    | some c =>
      simp only [checkCycleAux] at heq
      by_cases hc : c ∈ path
      · rw [if_pos hc] at heq
        have hcyc : cyc = path.dropWhile (fun x => !(x == c)) ++ [c] :=
          (Option.some.inj (Option.some.inj heq)).symm
        obtain ⟨t, hS⟩ := dropWhile_head_eq hc
        set S := path.dropWhile (fun x => !(x == c)) with hSdef
        have hsplit : path.takeWhile (fun x => !(x == c)) ++ S = path :=
          List.takeWhile_append_dropWhile _ _
        have hchS : List.Chain' (stepRel m) S := by
          have := hsplit ▸ hch
          exact (List.chain'_append.mp this).2.1
        have hlastS : path.getLast? = S.getLast? := by
          conv_lhs => rw [← hsplit]
          rw [List.getLast?_append]
          have : S.getLast? ≠ none := by
            rw [hS]
            simp [List.getLast?_eq_none_iff]
          cases hgl : S.getLast? with
          | none => exact absurd hgl this
          | some y => rfl
        have hlink : ∀ y, S.getLast? = some y → chainStep m y = some c := by
          intro y hy
          exact hlast y (hlastS ▸ hy)
        refine ⟨?_, ?_, ?_, ?_⟩
        · rw [hcyc, hS]
          simp [List.length_append]
        · rw [hcyc, List.getLast?_concat, hS]
          rfl
        · rw [hcyc]
          refine List.chain'_append.mpr ⟨hchS, List.chain'_singleton c, ?_⟩
          intro y hy z hz
          simp only [List.head?_cons, Option.mem_def, Option.some.injEq] at hz
          subst hz
          exact hlink y hy
        · rw [hcyc, List.dropLast_concat]
          exact (List.dropWhile_sublist _).nodup hnd
      · rw [if_neg hc] at heq
        have hnd2 : (path ++ [c]).Nodup := by
          rw [List.nodup_append]
          exact ⟨hnd, List.nodup_singleton c, fun a ha hac => hc (by rwa [List.mem_singleton.mp hac] at ha)⟩
        have hch2 : List.Chain' (stepRel m) (path ++ [c]) := by
          refine List.chain'_append.mpr ⟨hch, List.chain'_singleton c, ?_⟩
          intro y hy z hz
          simp only [List.head?_cons, Option.mem_def, Option.some.injEq] at hz
          subst hz
          exact hlast y hy
        have hlast2 : ∀ x, (path ++ [c]).getLast? = some x →
            chainStep m x = chainStep m c := by
          intro x hx
          rw [List.getLast?_concat] at hx
          rw [← Option.some.inj hx]
        exact ih _ _ _ hnd2 hch2 hlast2 heq

theorem checkCycleAux_ne_stop {m : Chain} {S : List String} (hS : CycleClosed m S) :
    ∀ fuel (path : List String) (c : String), c ∈ S →
      checkCycleAux m fuel path (some c) ≠ some none := by
  intro fuel
  induction fuel with
  | zero =>
    intro path c _ heq
    simp [checkCycleAux] at heq
  | succ f ih =>
    intro path c hc heq
    simp only [checkCycleAux] at heq
    by_cases hcp : c ∈ path
    · rw [if_pos hcp] at heq
      simp at heq
    · rw [if_neg hcp] at heq
      obtain ⟨d, hd, hdS⟩ := hS c hc
      rw [hd] at heq
      exact ih _ _ hdS heq

theorem stepN_add (m : Chain) (a : Nat) (c : String) :
    ∀ b, stepN m (a + b) c = (stepN m a c).bind (fun x => stepN m b x) := by
  intro b
  induction b with
  | zero =>
    cases h : stepN m a c <;> simp [stepN, h]
  | succ n ih =>
    have : a + (n + 1) = (a + n) + 1 := rfl
    rw [this]
    show (stepN m (a + n) c).bind (chainStep m) = _
    rw [ih]
    cases h : stepN m a c with
    | none => rfl
    | some z => simp [stepN]

theorem stepN_isSome_of_le {m : Chain} {c y : String} {N : Nat}
    (h : stepN m N c = some y) {i : Nat} (hi : i ≤ N) :
    ∃ z, stepN m i c = some z := by
  obtain ⟨j, rfl⟩ := Nat.le.dest hi
  rw [stepN_add] at h
  cases hz : stepN m i c with
  | none => rw [hz] at h; cases h
  | some z => exact ⟨z, rfl⟩

theorem chain'_stepN {m : Chain} {x : String} {t : List String}
    (h : List.Chain' (stepRel m) (x :: t)) :
    ∀ i (hi : i < (x :: t).length), stepN m i x = some ((x :: t).get ⟨i, hi⟩) := by
  intro i
  induction i with
  | zero => intro hi; rfl
  | succ n ihn =>
    intro hi
    have hn : n < (x :: t).length := Nat.lt_of_succ_lt hi
    have hstep := List.chain'_iff_get.mp h n (by simp at hi ⊢; omega)
    show (stepN m n x).bind (chainStep m) = _
    rw [ihn hn]
    exact hstep

theorem findSome?_some {α β : Type} {f : α → Option β} {l : List α} {b : β}
    (h : l.findSome? f = some b) : ∃ a ∈ l, f a = some b := by
  induction l with
  | nil => cases h
  | cons x t ih =>
    rw [List.findSome?_cons] at h
    cases hfx : f x with
    | some y =>
      rw [hfx] at h
      exact ⟨x, List.mem_cons_self x t, by rw [hfx, Option.some.inj h]⟩
    | none =>
      rw [hfx] at h
      obtain ⟨a, ha, hfa⟩ := ih h
      exact ⟨a, List.mem_cons_of_mem x ha, hfa⟩

theorem findSome?_isSome_of {α β : Type} {f : α → Option β} {l : List α} {a : α} {b : β}
    (ha : a ∈ l) (hf : f a = some b) : (l.findSome? f).isSome = true := by
  induction l with
  | nil => cases ha
  | cons x t ih =>
    rw [List.findSome?_cons]
    cases hfx : f x with
    | some y => rfl
    | none =>
      rcases List.mem_cons.mp ha with rfl | hat
      · rw [hf] at hfx; cases hfx
      · exact ih hat

theorem keys_length (m : Chain) : (keys m).length = m.length := List.length_map m Prod.fst

theorem checkCycleAux_top_isSome (m : Chain) (start : String) :
    (checkCycleAux m (m.length + 1) [] (some start)).isSome = true := by
  refine checkCycleAux_isSome m _ [] (some start) ?_
  have h1 : ((keys m).filter (fun k => decide (k ∉ ([] : List String)))).length ≤
      (keys m).length := List.length_filter_le _ _
  rw [keys_length] at h1
  omega

theorem checkCycle_eq_some_iff {m : Chain} {start : String} {cyc : List String} :
    checkCycle m start = some cyc ↔
      checkCycleAux m (m.length + 1) [] (some start) = some (some cyc) := by
  unfold checkCycle
  have hs := checkCycleAux_top_isSome m start
  cases haux : checkCycleAux m (m.length + 1) [] (some start) with
  | none => rw [haux] at hs; cases hs
  | some r =>
    simp only [Option.getD_some]
    constructor
    · intro h; rw [h]
    · intro h; exact Option.some.inj h

theorem checkCycle_props {m : Chain} {start : String} {cyc : List String}
    (h : checkCycle m start = some cyc) :
    2 ≤ cyc.length ∧ cyc.head? = cyc.getLast? ∧
      List.Chain' (stepRel m) cyc ∧ cyc.dropLast.Nodup :=
  checkCycleAux_sound m _ [] (some start) cyc List.nodup_nil List.chain'_nil
    (fun x hx => by cases hx) (checkCycle_eq_some_iff.mp h)

theorem checkCycle_isSome_of_closed {m : Chain} {S : List String} {c : String}
    (hS : CycleClosed m S) (hc : c ∈ S) :
    ∃ cyc, checkCycle m c = some cyc := by
  have hs := checkCycleAux_top_isSome m c
  cases haux : checkCycleAux m (m.length + 1) [] (some c) with
  | none => rw [haux] at hs; cases hs
  | some r =>
    cases r with
    | none => exact absurd haux (checkCycleAux_ne_stop hS _ [] c hc)
    | some cyc =>
      refine ⟨cyc, ?_⟩
      unfold checkCycle
      rw [haux]
      rfl

theorem nodup_subset_length {l L : List String} (hn : l.Nodup)
    (hsub : ∀ x ∈ l, x ∈ L) : l.length ≤ L.length := by
  calc l.length = l.toFinset.card := (List.toFinset_card_of_nodup hn).symm
    _ ≤ L.toFinset.card :=
        Finset.card_le_card
          (fun x hx => List.mem_toFinset.mpr (hsub x (List.mem_toFinset.mp hx)))
    _ ≤ L.length := List.toFinset_card_le L

theorem IsCycle.cycleClosed {m : Chain} {C : List String} (h : IsCycle m C) :
    CycleClosed m C := by
  intro c hc
  obtain ⟨i, hi⟩ := List.mem_iff_get.mp hc
  refine ⟨C.get ⟨(i.1 + 1) % C.length, Nat.mod_lt _ (Nat.zero_lt_of_lt i.2)⟩, ?_, List.get_mem _ _ _⟩
  rw [← hi]
  exact h.2 i.1 i.2

theorem orbit_cycleClosed {m : Chain} {r : String} {n : Nat}
    (h : stepN m (n + 1) r = some r) :
    CycleClosed m ((List.range (n + 2)).filterMap (fun i => stepN m i r)) ∧
      r ∈ (List.range (n + 2)).filterMap (fun i => stepN m i r) := by
  constructor
  · intro c hc
    obtain ⟨i, hir, hsi⟩ := List.mem_filterMap.mp hc
    have hilt : i < n + 2 := List.mem_range.mp hir
    by_cases hi1 : i ≤ n
    · obtain ⟨d, hd⟩ := stepN_isSome_of_le h (Nat.succ_le_succ hi1)
      refine ⟨d, ?_, List.mem_filterMap.mpr ⟨i + 1, List.mem_range.mpr (by omega), hd⟩⟩
      have : stepN m (i + 1) r = (stepN m i r).bind (chainStep m) := rfl
      rw [this, hsi] at hd
      exact hd
    · have hieq : i = n + 1 := by omega
      subst hieq
      have hcr : c = r := Option.some.inj (hsi.symm.trans h)
      obtain ⟨d, hd⟩ := stepN_isSome_of_le h (Nat.succ_le_succ (Nat.zero_le n))
      refine ⟨d, ?_, List.mem_filterMap.mpr ⟨1, List.mem_range.mpr (by omega), hd⟩⟩
      have : stepN m 1 r = (stepN m 0 r).bind (chainStep m) := rfl
      rw [this] at hd
      rw [hcr]
      exact hd
  · exact List.mem_filterMap.mpr ⟨0, List.mem_range.mpr (by omega), rfl⟩

theorem findCycle_isSome_of {m : Chain} (h : hasCycleIn m) :
    (findCycle m).isSome = true := by
  obtain ⟨p, hp, n, _, hstep⟩ := h
  obtain ⟨hS, hrS⟩ := orbit_cycleClosed hstep
  obtain ⟨cyc, hcyc⟩ := checkCycle_isSome_of_closed hS hrS
  have hlen := (checkCycle_props hcyc).1
  have hne : cyc.isEmpty = false := by
    cases cyc with
    | nil => simp at hlen
    | cons a t => rfl
  have hfp : (match checkCycle m p.1 with
      | some cyc => if cyc.isEmpty = true then none else some cyc
      | none => none) = some cyc := by
    rw [hcyc]
    show (if cyc.isEmpty = true then none else some cyc) = some cyc
    rw [hne]
    rfl
  unfold findCycle
  exact findSome?_isSome_of hp hfp

theorem findCycle_checkCycle {m : Chain} {cyc : List String}
    (h : findCycle m = some cyc) : ∃ p ∈ m, checkCycle m p.1 = some cyc := by
  unfold findCycle at h
  obtain ⟨p, hp, hfp⟩ := findSome?_some h
  refine ⟨p, hp, ?_⟩
  have hfp0 : (match checkCycle m p.1 with
      | some cyc => if cyc.isEmpty = true then none else some cyc
      | none => none) = some cyc := hfp
  cases hcc : checkCycle m p.1 with
  | none => rw [hcc] at hfp0; cases hfp0
  | some cyc0 =>
    rw [hcc] at hfp0
    have hfp1 : (if cyc0.isEmpty = true then none else some cyc0) = some cyc := hfp0
    cases hemp : cyc0.isEmpty with
    | true => rw [hemp] at hfp1; simp at hfp1
    | false =>
      rw [hemp] at hfp1
      simp only [Bool.false_eq_true, if_false] at hfp1
      rw [hfp1]

theorem findCycle_some_props {m : Chain} {cyc : List String}
    (h : findCycle m = some cyc) :
    2 ≤ cyc.length ∧ cyc.head? = cyc.getLast? ∧
      List.Chain' (stepRel m) cyc ∧ cyc.dropLast.Nodup := by
  obtain ⟨p, _, hcc⟩ := findCycle_checkCycle h
  exact checkCycle_props hcc

theorem hasCycleIn_of_findCycle {m : Chain} {cyc : List String}
    (h : findCycle m = some cyc) : hasCycleIn m := by
  obtain ⟨hlen, hhl, hch, hnd⟩ := findCycle_some_props h
  cases cyc with
  | nil => simp at hlen
  | cons x t =>
    have hlast : (x :: t).getLast? = some x := by
      rw [← hhl]
      rfl
    have htlen : 1 ≤ t.length := by
      simp only [List.length_cons] at hlen
      omega
    have hget : (x :: t).get ⟨t.length, by simp⟩ = x := by
      have h1 : (x :: t).getLast (List.cons_ne_nil x t) = x := by
        have h2 := List.getLast?_eq_getLast (x :: t) (List.cons_ne_nil x t)
        rw [h2] at hlast
        exact Option.some.inj hlast
      have h4 := List.getLast_eq_getElem (x :: t) (List.cons_ne_nil x t)
      rw [h1] at h4
      simp only [List.length_cons, Nat.add_sub_cancel] at h4
      rw [List.get_eq_getElem]
      exact h4.symm
    have hstepN : stepN m t.length x = some x := by
      have := chain'_stepN hch t.length (by simp)
      rw [hget] at this
      exact this
    have hsub : ∀ y ∈ (x :: t).dropLast, y ∈ keys m := chain'_mem_keys hch
    have hxkeys : x ∈ keys m := by
      cases t with
      | nil => simp at htlen
      | cons b t2 =>
        exact hsub x (by simp [List.dropLast])
    have hbound : (x :: t).dropLast.length ≤ m.length := by
      rw [← keys_length m]
      exact nodup_subset_length hnd hsub
    obtain ⟨d, hxd⟩ := mem_keys_iff.mp hxkeys
    refine ⟨(x, d), hxd, t.length - 1, List.mem_range.mpr ?_, ?_⟩
    · have : (x :: t).dropLast.length = t.length := by simp
      omega
    · have : t.length - 1 + 1 = t.length := by omega
      rw [this]
      exact hstepN

theorem findCycle_eq_none_of {m : Chain} (h : ¬ hasCycleIn m) :
    findCycle m = none := by
  cases hfc : findCycle m with
  | none => rfl
  | some cyc => exact absurd (hasCycleIn_of_findCycle hfc) h

/-! Stage 4: grouping by `down_revision`. -/

theorem lookup_addGroup_self (acc : List (String × List String)) (d r : String) :
    List.lookup d (addGroup acc d r) = some ((List.lookup d acc).getD [] ++ [r]) := by
  induction acc with
  | nil => simp [addGroup, List.lookup_cons]
  | cons g rest ih =>
    obtain ⟨d0, rs⟩ := g
    by_cases h : d0 = d
    · subst h
      simp [addGroup, List.lookup_cons]
    · have hbeq : (d == d0) = false := beq_eq_false_iff_ne.mpr (fun he => h he.symm)
      simp only [addGroup, if_neg h]
      rw [List.lookup_cons, hbeq, List.lookup_cons, hbeq]
      exact ih

theorem lookup_addGroup_other (acc : List (String × List String)) (d r d2 : String)
    (h : d2 ≠ d) : List.lookup d2 (addGroup acc d r) = List.lookup d2 acc := by
  induction acc with
  | nil =>
    have hbeq : (d2 == d) = false := beq_eq_false_iff_ne.mpr h
    simp [addGroup, List.lookup_cons, hbeq]
  | cons g rest ih =>
    obtain ⟨d0, rs⟩ := g
    by_cases h0 : d0 = d
    · subst h0
      have hbeq : (d2 == d0) = false := beq_eq_false_iff_ne.mpr h
      have hag : addGroup ((d0, rs) :: rest) d0 r = (d0, rs ++ [r]) :: rest := by
        simp [addGroup]
      rw [hag, List.lookup_cons, hbeq, List.lookup_cons, hbeq]
    · simp only [addGroup, if_neg h0]
      rw [List.lookup_cons, List.lookup_cons]
      cases hbeq : (d2 == d0) with
      | true => rfl
      | false => exact ih

theorem keys_addGroup (acc : List (String × List String)) (d r : String) :
    (addGroup acc d r).map Prod.fst =
      if d ∈ acc.map Prod.fst then acc.map Prod.fst else acc.map Prod.fst ++ [d] := by
  induction acc with
  | nil => simp [addGroup]
  | cons g rest ih =>
    obtain ⟨d0, rs⟩ := g
    by_cases h : d0 = d
    · subst h
      simp [addGroup]
    · simp only [addGroup, if_neg h, List.map_cons, ih]
      have hne : d ≠ d0 := fun he => h he.symm
      by_cases hm : d ∈ rest.map Prod.fst
      · rw [if_pos hm, if_pos (List.mem_cons.mpr (Or.inr hm))]
      · rw [if_neg hm, if_neg (fun hc => by
          rcases List.mem_cons.mp hc with he | hm2
          · exact hne he
          · exact hm hm2)]
        rfl

theorem nodup_keys_addGroup {acc : List (String × List String)} {d r : String}
    (h : (acc.map Prod.fst).Nodup) : ((addGroup acc d r).map Prod.fst).Nodup := by
  rw [keys_addGroup]
  by_cases hm : d ∈ acc.map Prod.fst
  · rwa [if_pos hm]
  · rw [if_neg hm, List.nodup_append]
    exact ⟨h, List.nodup_singleton d,
      fun a ha had => hm (by rwa [List.mem_singleton.mp had] at ha)⟩

theorem lookup_foldl_groupStep :
    ∀ (l : Chain) (acc : List (String × List String)) (d : String),
      List.lookup d (l.foldl groupStep acc) =
        match List.lookup d acc with
        | some rs => some (rs ++ sharersIn l d)
        | none => if sharersIn l d = [] then none else some (sharersIn l d) := by
  intro l
  induction l with
  | nil =>
    intro acc d
    cases h : List.lookup d acc <;> simp [sharersIn, h]
  | cons p rest ih =>
    intro acc d
    obtain ⟨r0, o0⟩ := p
    rw [List.foldl_cons]
    cases o0 with
    | none =>
      have hstep : groupStep acc (r0, none) = acc := rfl
      have hsh : sharersIn ((r0, none) :: rest) d = sharersIn rest d := by
        simp [sharersIn, List.filter_cons]
      rw [hstep, hsh]
      exact ih acc d
    | some d0 =>
      have hstep : groupStep acc (r0, some d0) = addGroup acc d0 r0 := rfl
      rw [hstep]
      by_cases hd : d0 = d
      · subst hd
        have hsh : sharersIn ((r0, some d0) :: rest) d0 = r0 :: sharersIn rest d0 := by
          simp [sharersIn, List.filter_cons]
        rw [ih (addGroup acc d0 r0) d0, lookup_addGroup_self, hsh]
        cases hacc : List.lookup d0 acc with
        | none => simp
        | some rs => simp
      · have hsh : sharersIn ((r0, some d0) :: rest) d = sharersIn rest d := by
          have : ((some d0 : Option String) == some d) = false := by
            simp [hd]
          simp [sharersIn, List.filter_cons, this]
        rw [ih (addGroup acc d0 r0) d, lookup_addGroup_other acc d0 r0 d (fun he => hd he.symm), hsh]

theorem nodup_keys_foldl_groupStep :
    ∀ (l : Chain) (acc : List (String × List String)),
      (acc.map Prod.fst).Nodup → ((l.foldl groupStep acc).map Prod.fst).Nodup := by
  intro l
  induction l with
  | nil => intro acc h; exact h
  | cons p rest ih =>
    intro acc h
    rw [List.foldl_cons]
    obtain ⟨r0, o0⟩ := p
    cases o0 with
    | none => exact ih acc h
    | some d0 => exact ih _ (nodup_keys_addGroup h)

theorem mem_iff_lookup {β : Type} :
    ∀ {l : List (String × β)}, (l.map Prod.fst).Nodup → ∀ {d : String} {v : β},
      ((d, v) ∈ l ↔ List.lookup d l = some v) := by
  intro l
  induction l with
  | nil =>
    intro _ d v
    constructor
    · intro h; cases h
    · intro h; cases h
  | cons g rest ih =>
    intro hnd d v
    obtain ⟨a, b⟩ := g
    simp only [List.map_cons, List.nodup_cons] at hnd
    constructor
    · intro hmem
      rcases List.mem_cons.mp hmem with heq | hmem2
      · obtain ⟨rfl, rfl⟩ := Prod.mk.inj heq
        rw [List.lookup_cons]
        simp
      · have hda : d ≠ a := by
          intro he
          subst he
          exact hnd.1 (List.mem_map.mpr ⟨(d, v), hmem2, rfl⟩)
        rw [List.lookup_cons, beq_eq_false_iff_ne.mpr hda]
        exact (ih hnd.2).mp hmem2
    · intro hlk
      rw [List.lookup_cons] at hlk
      by_cases hda : d = a
      · subst hda
        rw [beq_self_eq_true d] at hlk
        exact List.mem_cons.mpr (Or.inl (by rw [Option.some.inj hlk]))
      · rw [beq_eq_false_iff_ne.mpr hda] at hlk
        exact List.mem_cons.mpr (Or.inr ((ih hnd.2).mpr hlk))

theorem lookup_downGroups (m : Chain) (d : String) :
    List.lookup d (downGroups m) =
      if sharersIn (sortedChain m) d = [] then none
      else some (sharersIn (sortedChain m) d) := by
  unfold downGroups
  rw [lookup_foldl_groupStep (sortedChain m) [] d]
  rfl

theorem downGroups_keys_nodup (m : Chain) :
    ((downGroups m).map Prod.fst).Nodup :=
  nodup_keys_foldl_groupStep (sortedChain m) [] List.nodup_nil

theorem mem_downGroups {m : Chain} {d : String} {rs : List String} :
    (d, rs) ∈ downGroups m ↔
      (sharersIn (sortedChain m) d ≠ [] ∧ rs = sharersIn (sortedChain m) d) := by
  rw [mem_iff_lookup (downGroups_keys_nodup m), lookup_downGroups]
  by_cases h : sharersIn (sortedChain m) d = []
  · rw [if_pos h]
    constructor
    · intro hx; cases hx
    · intro hx; exact absurd h hx.1
  · rw [if_neg h]
    constructor
    · intro hx; exact ⟨h, (Option.some.inj hx).symm⟩
    · intro hx; rw [hx.2]

theorem mem_sharersIn {l : Chain} {d r : String} :
    r ∈ sharersIn l d ↔ (r, some d) ∈ l := by
  unfold sharersIn
  rw [List.mem_map]
  constructor
  · rintro ⟨p, hpf, rfl⟩
    rw [List.mem_filter] at hpf
    have h2 : p.2 = some d := by
      have := hpf.2
      rwa [beq_iff_eq] at this
    have : p = (p.1, some d) := by
      cases p
      simp_all
    rw [← this]
    exact hpf.1
  · intro h
    exact ⟨(r, some d), List.mem_filter.mpr ⟨h, by simp⟩, rfl⟩

theorem map_fst_filter_sorted {m : Chain} (hwf : WF m)
    (f : String × Option String → Bool) :
    ((((sortedChain m).filter f).map Prod.fst).Pairwise (· < ·)) := by
  have hf : ((sortedChain m).filter f).Pairwise keyLe :=
    (sortedChain_sorted m).sublist (List.filter_sublist _)
  have hle : (((sortedChain m).filter f).map Prod.fst).Pairwise (· ≤ ·) := by
    rw [List.pairwise_map]
    exact hf.imp (fun hab => (strLe_iff _ _).mp hab)
  have hn : (((sortedChain m).filter f).map Prod.fst).Nodup := by
    have hsub : List.Sublist (((sortedChain m).filter f).map Prod.fst)
        ((sortedChain m).map Prod.fst) :=
      (List.filter_sublist _).map _
    exact hsub.nodup (sortedChain_keys_nodup hwf)
  refine (hle.and hn).imp ?_
  intro a b hab
  exact lt_of_le_of_ne hab.1 hab.2

theorem sharersIn_sorted {m : Chain} (hwf : WF m) (d : String) :
    (sharersIn (sortedChain m) d).Pairwise (· < ·) :=
  map_fst_filter_sorted hwf _

theorem sharersIn_nodup {m : Chain} (hwf : WF m) (d : String) :
    (sharersIn (sortedChain m) d).Nodup :=
  (sharersIn_sorted hwf d).imp (fun hab => ne_of_lt hab)

theorem findDupGroup_none_iff {m : Chain} (hwf : WF m) :
    findDupGroup m = none ↔ ¬ hasDuplicateDown m := by
  unfold findDupGroup
  rw [List.find?_eq_none]
  constructor
  · rintro hall ⟨p, hp, q, hq, hne, hsome, heq⟩
    obtain ⟨d, hd⟩ := Option.isSome_iff_exists.mp hsome
    have hpd : (p.1, some d) ∈ sortedChain m := by
      have : p = (p.1, some d) := by
        cases p
        simp_all
      rw [← this]
      exact mem_sortedChain.mpr hp
    have hqd : (q.1, some d) ∈ sortedChain m := by
      have h2 : q.2 = some d := by rw [← heq, hd]
      have : q = (q.1, some d) := by
        cases q
        simp_all
      rw [← this]
      exact mem_sortedChain.mpr hq
    have hp1 : p.1 ∈ sharersIn (sortedChain m) d := mem_sharersIn.mpr hpd
    have hq1 : q.1 ∈ sharersIn (sortedChain m) d := mem_sharersIn.mpr hqd
    have hlen : 2 ≤ (sharersIn (sortedChain m) d).length :=
      two_mem_length hp1 hq1 hne
    have hgrp : (d, sharersIn (sortedChain m) d) ∈ downGroups m :=
      mem_downGroups.mpr ⟨by
        intro hemp
        rw [hemp] at hlen
        simp at hlen, rfl⟩
    have := hall _ hgrp
    simp only [decide_eq_true_eq] at this
    omega
  · intro hno g hg hlen
    obtain ⟨d, rs⟩ := g
    simp only [decide_eq_true_eq] at hlen
    obtain ⟨hne, hrs⟩ := mem_downGroups.mp hg
    rw [hrs] at hlen
    obtain ⟨a, b, t, hsplit⟩ := length_two_split hlen
    have hnd := sharersIn_nodup hwf d
    rw [hsplit] at hnd
    have hab : a ≠ b := by
      rw [List.nodup_cons] at hnd
      exact fun he => hnd.1 (he ▸ List.mem_cons_self b t)
    have ha : (a, some d) ∈ m :=
      mem_sortedChain.mp (mem_sharersIn.mp (by rw [hsplit]; exact List.mem_cons_self a _))
    have hb : (b, some d) ∈ m :=
      mem_sortedChain.mp (mem_sharersIn.mp (by
        rw [hsplit]
        exact List.mem_cons_of_mem a (List.mem_cons_self b t)))
    exact hno ⟨(a, some d), ha, (b, some d), hb, hab, rfl, rfl⟩

theorem find?_isSome_of {α : Type} {p : α → Bool} {l : List α} {a : α}
    (ha : a ∈ l) (hp : p a = true) : (l.find? p).isSome = true := by
  induction l with
  | nil => cases ha
  | cons x t ih =>
    rw [List.find?_cons]
    cases hpx : p x with
    | true => rfl
    | false =>
      rcases List.mem_cons.mp ha with rfl | hat
      · rw [hp] at hpx; cases hpx
      · exact ih hat

theorem hasDuplicateDown_group {m : Chain} (h : hasDuplicateDown m) :
    ∃ d, (d, sharersIn (sortedChain m) d) ∈ downGroups m ∧
      2 ≤ (sharersIn (sortedChain m) d).length := by
  obtain ⟨p, hp, q, hq, hne, hsome, heq⟩ := h
  obtain ⟨d, hd⟩ := Option.isSome_iff_exists.mp hsome
  have hpd : (p.1, some d) ∈ sortedChain m := by
    have : p = (p.1, some d) := by
      cases p
      simp_all
    rw [← this]
    exact mem_sortedChain.mpr hp
  have hqd : (q.1, some d) ∈ sortedChain m := by
    have h2 : q.2 = some d := by rw [← heq, hd]
    have : q = (q.1, some d) := by
      cases q
      simp_all
    rw [← this]
    exact mem_sortedChain.mpr hq
  have hlen : 2 ≤ (sharersIn (sortedChain m) d).length :=
    two_mem_length (mem_sharersIn.mpr hpd) (mem_sharersIn.mpr hqd) hne
  refine ⟨d, mem_downGroups.mpr ⟨?_, rfl⟩, hlen⟩
  intro hemp
  rw [hemp] at hlen
  simp at hlen

theorem findDupGroup_isSome_of {m : Chain} (h : hasDuplicateDown m) :
    (findDupGroup m).isSome = true := by
  obtain ⟨d, hgrp, hlen⟩ := hasDuplicateDown_group h
  exact find?_isSome_of hgrp (by simpa using hlen)

/-! Dispatch lemmas: which branch of `validateMigrationChain` runs. -/

theorem isEmpty_false_of_ne {m : Chain} (hne : m ≠ []) : ¬ m.isEmpty = true := by
  rw [List.isEmpty_iff]
  exact hne

theorem validate_multi {m : Chain} (hne : m ≠ [])
    (h1 : 1 < (initialMigrations m).length) :
    validateMigrationChain m = .error (.multipleInitialMigrationsError
      ("Multiple initial migrations found (with None as down_revision): " ++
        String.intercalate ", " (initialMigrations m))) := by
  unfold validateMigrationChain
  rw [if_neg (isEmpty_false_of_ne hne), if_pos h1]

theorem validate_missing {m : Chain} {p : String × Option String} (hne : m ≠ [])
    (h1 : ¬ 1 < (initialMigrations m).length) (h2 : findDangling m = some p) :
    validateMigrationChain m = .error (.missingDownRevisionError
      ("Migration '" ++ p.1 ++ "' points to non-existent revision '" ++
        p.2.getD "" ++ "'")) := by
  unfold validateMigrationChain
  rw [if_neg (isEmpty_false_of_ne hne), if_neg h1, h2]

theorem validate_circular {m : Chain} {cyc : List String} (hne : m ≠ [])
    (h1 : ¬ 1 < (initialMigrations m).length) (h2 : findDangling m = none)
    (h3 : findCycle m = some cyc) :
    validateMigrationChain m = .error (.circularDependencyError
      ("Circular dependency found: " ++ String.intercalate " -> " cyc)) := by
  unfold validateMigrationChain
  rw [if_neg (isEmpty_false_of_ne hne), if_neg h1, h2, h3]

theorem validate_dup {m : Chain} {g : String × List String} (hne : m ≠ [])
    (h1 : ¬ 1 < (initialMigrations m).length) (h2 : findDangling m = none)
    (h3 : findCycle m = none) (h4 : findDupGroup m = some g) :
    validateMigrationChain m = .error (.duplicateDownRevisionError
      ("Multiple migrations have the same down_revision '" ++ g.1 ++
        "': " ++ String.intercalate ", " g.2)) := by
  unfold validateMigrationChain
  rw [if_neg (isEmpty_false_of_ne hne), if_neg h1, h2, h3, h4]

theorem validate_ok {m : Chain} (hne : m ≠ [])
    (h1 : ¬ 1 < (initialMigrations m).length) (h2 : findDangling m = none)
    (h3 : findCycle m = none) (h4 : findDupGroup m = none) :
    validateMigrationChain m = .ok () := by
  unfold validateMigrationChain
  rw [if_neg (isEmpty_false_of_ne hne), if_neg h1, h2, h3, h4]

/-! Bridges from chain-level predicates to the stage outcomes. -/

theorem stage1_pass {m : Chain} (h : countRoots m ≤ 1) :
    ¬ 1 < (initialMigrations m).length := by
  rw [initialMigrations_length]
  omega

theorem stage1_fire {m : Chain} (h : 2 ≤ countRoots m) :
    1 < (initialMigrations m).length := by
  rw [initialMigrations_length]
  omega

theorem not_hasDangling_of_linksResolve {m : Chain} (h : linksResolve m) :
    ¬ hasDangling m := by
  rintro ⟨p, hp, hd⟩
  obtain ⟨d, h2, _, hnk⟩ := isDangling_iff.mp hd
  rcases h p hp with h3 | ⟨d2, hk, h3⟩
  · rw [h2] at h3; cases h3
  · rw [h2] at h3
    rw [← Option.some.inj h3] at hk
    exact hnk hk

theorem countRoots_pos_of_mem {m : Chain} {r : String} (h : (r, none) ∈ m) :
    1 ≤ countRoots m := by
  unfold countRoots
  have : (r, none) ∈ m.filter (fun p => p.2.isNone) :=
    List.mem_filter.mpr ⟨h, rfl⟩
  have hne : m.filter (fun p => p.2.isNone) ≠ [] := List.ne_nil_of_mem this
  have := List.length_pos.mpr hne
  omega

theorem findCycle_isSome_closed {m : Chain} {S : List String}
    (hS : CycleClosed m S) (hSne : S ≠ []) : (findCycle m).isSome = true := by
  obtain ⟨c0, hc0⟩ := List.exists_mem_of_ne_nil S hSne
  obtain ⟨d, hd, _⟩ := hS c0 hc0
  obtain ⟨v, hv⟩ := mem_keys_iff.mp (chainStep_mem_keys hd)
  obtain ⟨cyc, hcyc⟩ := checkCycle_isSome_of_closed hS hc0
  have hlen := (checkCycle_props hcyc).1
  have hne : cyc.isEmpty = false := by
    cases cyc with
    | nil => simp at hlen
    | cons a t => rfl
  have hfp : (match checkCycle m c0 with
      | some cyc => if cyc.isEmpty = true then none else some cyc
      | none => none) = some cyc := by
    rw [hcyc]
    show (if cyc.isEmpty = true then none else some cyc) = some cyc
    rw [hne]
    rfl
  unfold findCycle
  exact findSome?_isSome_of hv hfp

/-! The claims. -/

/-- C1: for every well-formed mapping forming a valid chain — exactly one
null-predecessor entry, every non-null predecessor itself a key, no two
distinct revisions sharing a non-null predecessor, and no key returning to
itself by following predecessor links — `validate_migration_chain`
succeeds. -/
theorem C1_valid_chain_ok (m : Chain) (hwf : WF m)
    (hroot : countRoots m = 1) (hlinks : linksResolve m)
    (hdup : ¬ hasDuplicateDown m) (hacyc : ¬ hasCycleIn m) :
    validateMigrationChain m = .ok () := by
  have hne : m ≠ [] := by
    intro he
    rw [he] at hroot
    simp [countRoots] at hroot
  exact validate_ok hne (stage1_pass (le_of_eq hroot))
    (findDangling_eq_none_iff.mpr (not_hasDangling_of_linksResolve hlinks))
    (findCycle_eq_none_of hacyc)
    ((findDupGroup_none_iff hwf).mpr hdup)

theorem C1_valid_chain_ok_witness :
    validateMigrationChain [("A", none), ("B", some "A"), ("C", some "B")] = .ok () :=
  C1_valid_chain_ok _ (by decide) (by decide) (by decide) (by decide) (by decide)

/-- C2: one invocation reports at most one violation, selected by the fixed
priority order multiple-roots, then dangling predecessor (as the code tests
it), then cycle, then duplicate predecessor; with none of the four present
the validator succeeds. -/
theorem C2_priority (m : Chain) (hwf : WF m) :
    (2 ≤ countRoots m →
      ∃ s, validateMigrationChain m = .error (.multipleInitialMigrationsError s)) ∧
    (countRoots m ≤ 1 → hasDangling m →
      ∃ s, validateMigrationChain m = .error (.missingDownRevisionError s)) ∧
    (countRoots m ≤ 1 → ¬ hasDangling m → hasCycleIn m →
      ∃ s, validateMigrationChain m = .error (.circularDependencyError s)) ∧
    (countRoots m ≤ 1 → ¬ hasDangling m → ¬ hasCycleIn m → hasDuplicateDown m →
      ∃ s, validateMigrationChain m = .error (.duplicateDownRevisionError s)) ∧
    (countRoots m ≤ 1 → ¬ hasDangling m → ¬ hasCycleIn m → ¬ hasDuplicateDown m →
      validateMigrationChain m = .ok ()) := by
  refine ⟨?_, ?_, ?_, ?_, ?_⟩
  · intro h
    have hne : m ≠ [] := by
      intro he
      rw [he] at h
      simp [countRoots] at h
    exact ⟨_, validate_multi hne (stage1_fire h)⟩
  · intro h1 h2
    have hne : m ≠ [] := by
      obtain ⟨p0, hp0, _⟩ := h2
      exact List.ne_nil_of_mem hp0
    cases hfd : findDangling m with
    | none => exact absurd (findDangling_eq_none_iff.mp hfd) (not_not_intro h2)
    | some p => exact ⟨_, validate_missing hne (stage1_pass h1) hfd⟩
  · intro h1 h2 h3
    have hne : m ≠ [] := by
      obtain ⟨p0, hp0, _⟩ := h3
      exact List.ne_nil_of_mem hp0
    have hfs := findCycle_isSome_of h3
    cases hfc : findCycle m with
    | none => rw [hfc] at hfs; cases hfs
    | some cyc =>
      exact ⟨_, validate_circular hne (stage1_pass h1)
        (findDangling_eq_none_iff.mpr h2) hfc⟩
  · intro h1 h2 h3 h4
    have hne : m ≠ [] := by
      obtain ⟨p0, hp0, _⟩ := h4
      exact List.ne_nil_of_mem hp0
    have hfs := findDupGroup_isSome_of h4
    cases hfd : findDupGroup m with
    | none => rw [hfd] at hfs; cases hfs
    | some g =>
      exact ⟨_, validate_dup hne (stage1_pass h1)
        (findDangling_eq_none_iff.mpr h2) (findCycle_eq_none_of h3) hfd⟩
  · intro h1 h2 h3 h4
    by_cases hne : m = []
    · rw [hne]
      rfl
    · exact validate_ok hne (stage1_pass h1) (findDangling_eq_none_iff.mpr h2)
        (findCycle_eq_none_of h3) ((findDupGroup_none_iff hwf).mpr h4)

theorem C2_priority_witness :
    ∃ s, validateMigrationChain [("A", none), ("B", none), ("C", some "X")] =
      .error (.multipleInitialMigrationsError s) :=
  (C2_priority [("A", none), ("B", none), ("C", some "X")] (by decide)).1 (by decide)

/-- C3 (counterexample to the claim as stated): the revision A has the
non-null predecessor "" which is not a key of the mapping, yet validation
succeeds, because the code tests `if down` and Python's truthiness treats
the empty string like `None`. -/
theorem C3_counterexample :
    (("A", some "") ∈ ([("A", some "")] : Chain) ∧ "" ∉ keys [("A", some "")]) ∧
      validateMigrationChain [("A", some "")] = .ok () :=
  ⟨⟨by decide, by decide⟩, by rfl⟩

/-- C3 (amended): on a well-formed mapping with at most one null-predecessor
entry, if some revision fails the code's dangling test — its predecessor is
non-null, non-empty and not a key — validation fails with
`MissingDownRevisionError` naming the smallest such revision and its
predecessor. -/
theorem C3_missing_down (m : Chain) (hwf : WF m) (hroot : countRoots m ≤ 1)
    (hdang : hasDangling m) :
    ∃ rev down, validateMigrationChain m = .error (.missingDownRevisionError
        ("Migration '" ++ rev ++ "' points to non-existent revision '" ++
          down ++ "'")) ∧
      (rev, some down) ∈ m ∧ down ≠ "" ∧ down ∉ keys m ∧
      ∀ r2 d2, (r2, some d2) ∈ m → d2 ≠ "" → d2 ∉ keys m → rev ≤ r2 := by
  have hne : m ≠ [] := by
    obtain ⟨p0, hp0, _⟩ := hdang
    exact List.ne_nil_of_mem hp0
  cases hfd : findDangling m with
  | none => exact absurd (findDangling_eq_none_iff.mp hfd) (not_not_intro hdang)
  | some p =>
    have hpdang : isDangling m p = true := List.find?_some hfd
    obtain ⟨d, h2, hdne, hnk⟩ := isDangling_iff.mp hpdang
    have hgetD : p.2.getD "" = d := by rw [h2]; rfl
    have hpm : (p.1, some d) ∈ m := by
      have : p = (p.1, some d) := by
        cases p
        simp_all
      rw [← this]
      exact mem_sortedChain.mp (List.mem_of_find?_eq_some hfd)
    refine ⟨p.1, d, ?_, hpm, hdne, hnk, ?_⟩
    · have := validate_missing hne (stage1_pass hroot) hfd
      rwa [hgetD] at this
    · intro r2 d2 hmem hd2ne hd2nk
      refine find?_min_key (sortedChain_sorted m) hfd (r2, some d2)
        (mem_sortedChain.mpr hmem) ?_
      exact isDangling_iff.mpr ⟨d2, rfl, hd2ne, hd2nk⟩

theorem C3_missing_down_witness :
    ∃ rev down, validateMigrationChain [("A", none), ("B", some "X")] =
        .error (.missingDownRevisionError
          ("Migration '" ++ rev ++ "' points to non-existent revision '" ++
            down ++ "'")) ∧
      (rev, some down) ∈ ([("A", none), ("B", some "X")] : Chain) ∧
      down ≠ "" ∧ down ∉ keys [("A", none), ("B", some "X")] ∧
      ∀ r2 d2, (r2, some d2) ∈ ([("A", none), ("B", some "X")] : Chain) →
        d2 ≠ "" → d2 ∉ keys [("A", none), ("B", some "X")] → rev ≤ r2 :=
  C3_missing_down _ (by decide) (by decide) (by decide)

/-- C4: a mapping with two or more null-predecessor entries fails with
`MultipleInitialMigrationsError`, whose message lists exactly the
null-predecessor revisions in strictly ascending order, comma-joined. -/
theorem C4_multiple_roots (m : Chain) (hwf : WF m) (h : 2 ≤ countRoots m) :
    ∃ l, validateMigrationChain m = .error (.multipleInitialMigrationsError
        ("Multiple initial migrations found (with None as down_revision): " ++
          String.intercalate ", " l)) ∧
      l.Pairwise (· < ·) ∧ ∀ r, r ∈ l ↔ (r, none) ∈ m := by
  have hne : m ≠ [] := by
    intro he
    rw [he] at h
    simp [countRoots] at h
  exact ⟨initialMigrations m, validate_multi hne (stage1_fire h),
    initialMigrations_sorted hwf, fun r => mem_initialMigrations⟩

theorem C4_multiple_roots_witness :
    ∃ l, validateMigrationChain [("B", none), ("A", none)] =
        .error (.multipleInitialMigrationsError
          ("Multiple initial migrations found (with None as down_revision): " ++
            String.intercalate ", " l)) ∧
      l.Pairwise (· < ·) ∧ ∀ r, r ∈ l ↔ (r, none) ∈ ([("B", none), ("A", none)] : Chain) :=
  C4_multiple_roots _ (by decide) (by decide)

/-- C5: on a mapping with at most one null-predecessor entry whose non-null
predecessors all resolve, a predecessor cycle makes validation fail with
`CircularDependencyError`; the reported sequence starts and ends at the same
revision and each consecutive pair is one predecessor step apart; and on the
mapping A:None, B:C, C:B (checking reaches B first) the reported sequence is
B -> C -> B. -/
theorem C5_cycle (m : Chain) (hroot : countRoots m ≤ 1) (hlinks : linksResolve m)
    (hcyc : ∃ C, IsCycle m C) :
    (∃ cyc, validateMigrationChain m = .error (.circularDependencyError
        ("Circular dependency found: " ++ String.intercalate " -> " cyc)) ∧
      cyc.head? = cyc.getLast? ∧ 2 ≤ cyc.length ∧
      List.Chain' (fun a b => chainStep m a = some b) cyc) ∧
    validateMigrationChain [("A", none), ("B", some "C"), ("C", some "B")] =
      .error (.circularDependencyError "Circular dependency found: B -> C -> B") := by
  refine ⟨?_, by rfl⟩
  obtain ⟨C, hC⟩ := hcyc
  have hCc := hC.cycleClosed
  have hne : m ≠ [] := by
    obtain ⟨c0, hc0⟩ := List.exists_mem_of_ne_nil C hC.1
    obtain ⟨d, hd, _⟩ := hCc c0 hc0
    obtain ⟨v, hv⟩ := mem_keys_iff.mp (chainStep_mem_keys hd)
    exact List.ne_nil_of_mem hv
  have hfs := findCycle_isSome_closed hCc hC.1
  cases hfc : findCycle m with
  | none => rw [hfc] at hfs; cases hfs
  | some cyc =>
    obtain ⟨hlen, hhl, hch, _⟩ := findCycle_some_props hfc
    exact ⟨cyc, validate_circular hne (stage1_pass hroot)
      (findDangling_eq_none_iff.mpr (not_hasDangling_of_linksResolve hlinks)) hfc,
      hhl, hlen, hch⟩

theorem C5_cycle_witness :
    (∃ cyc, validateMigrationChain [("A", none), ("B", some "C"), ("C", some "B")] =
        .error (.circularDependencyError
          ("Circular dependency found: " ++ String.intercalate " -> " cyc)) ∧
      cyc.head? = cyc.getLast? ∧ 2 ≤ cyc.length ∧
      List.Chain' (fun a b =>
        chainStep [("A", none), ("B", some "C"), ("C", some "B")] a = some b) cyc) ∧
    validateMigrationChain [("A", none), ("B", some "C"), ("C", some "B")] =
      .error (.circularDependencyError "Circular dependency found: B -> C -> B") :=
  C5_cycle [("A", none), ("B", some "C"), ("C", some "B")] (by decide) (by decide)
    ⟨["B", "C"], by decide⟩

/-- C6: on a well-formed mapping with at most one root, all links resolving
and no cycle, two distinct revisions sharing the same non-null predecessor
make validation fail with `DuplicateDownRevisionError` naming a shared
predecessor together with exactly the revisions that share it, in strictly
ascending order. -/
theorem C6_duplicate_down (m : Chain) (hwf : WF m) (hroot : countRoots m ≤ 1)
    (hlinks : linksResolve m) (hacyc : ¬ hasCycleIn m)
    (hdup : hasDuplicateDown m) :
    ∃ d revs, validateMigrationChain m = .error (.duplicateDownRevisionError
        ("Multiple migrations have the same down_revision '" ++ d ++ "': " ++
          String.intercalate ", " revs)) ∧
      2 ≤ revs.length ∧ revs.Pairwise (· < ·) ∧
      ∀ r, r ∈ revs ↔ (r, some d) ∈ m := by
  have hne : m ≠ [] := by
    obtain ⟨p0, hp0, _⟩ := hdup
    exact List.ne_nil_of_mem hp0
  have hfs := findDupGroup_isSome_of hdup
  cases hfd : findDupGroup m with
  | none => rw [hfd] at hfs; cases hfs
  | some g =>
    obtain ⟨d, rs⟩ := g
    have hmem : (d, rs) ∈ downGroups m :=
      List.mem_of_find?_eq_some hfd
    obtain ⟨hne2, hrs⟩ := mem_downGroups.mp hmem
    have hlen : 2 ≤ rs.length := by
      have := List.find?_some hfd
      simp only [decide_eq_true_eq] at this
      omega
    have hd2 : findDangling m = none :=
      findDangling_eq_none_iff.mpr (not_hasDangling_of_linksResolve hlinks)
    have hc3 : findCycle m = none := findCycle_eq_none_of hacyc
    have herr := validate_dup hne (stage1_pass hroot) hd2 hc3 hfd
    refine ⟨d, rs, herr, hlen, ?_, ?_⟩
    · rw [hrs]
      exact sharersIn_sorted hwf d
    · intro r
      rw [hrs, mem_sharersIn, mem_sortedChain]

theorem C6_duplicate_down_witness :
    ∃ d revs, validateMigrationChain [("A", none), ("B", some "A"), ("C", some "A")] =
        .error (.duplicateDownRevisionError
          ("Multiple migrations have the same down_revision '" ++ d ++ "': " ++
            String.intercalate ", " revs)) ∧
      2 ≤ revs.length ∧ revs.Pairwise (· < ·) ∧
      ∀ r, r ∈ revs ↔ (r, some d) ∈ ([("A", none), ("B", some "A"), ("C", some "A")] : Chain) :=
  C6_duplicate_down _ (by decide) (by decide) (by decide) (by decide) (by decide)

/-- C7: validation succeeds on the empty mapping and on every one-entry
mapping whose single revision has a null predecessor. -/
theorem C7_empty_and_single_root :
    validateMigrationChain [] = .ok () ∧
      ∀ r : String, validateMigrationChain [(r, none)] = .ok () := by
  refine ⟨rfl, fun r => ?_⟩
  have hwf : WF [(r, none)] := by simp [WF, keys]
  refine validate_ok (by simp) (stage1_pass ?_) (findDangling_eq_none_iff.mpr ?_)
    (findCycle_eq_none_of ?_) ((findDupGroup_none_iff hwf).mpr ?_)
  · simp [countRoots]
  · rintro ⟨p, hp, hd⟩
    rw [List.mem_singleton] at hp
    rw [hp] at hd
    simp [isDangling] at hd
  · rintro ⟨p, hp, n, hn, hs⟩
    rw [List.mem_singleton] at hp
    simp only [List.length_singleton, List.mem_range, Nat.lt_one_iff] at hn
    subst hn
    rw [hp] at hs
    have : stepN [(r, none)] 1 r = none := by
      show (stepN [(r, none)] 0 r).bind (chainStep [(r, none)]) = none
      show chainStep [(r, none)] r = none
      unfold chainStep
      rw [List.lookup_cons]
      simp
    rw [this] at hs
    cases hs
  · rintro ⟨p, hp, q, hq, hne, _, _⟩
    rw [List.mem_singleton] at hp hq
    rw [hp, hq] at hne
    exact hne rfl

/-- A prefix of input pairs on which the builder raises nothing: each pair's
revision is not yet a key and its predecessor value (including `None`) is
not yet a stored predecessor value at the moment it is inserted. -/
def cleanBuild (pre : List (String × Option String)) : Prop :=
  ∀ i (h : i < pre.length),
    (pre.get ⟨i, h⟩).1 ∉ keys (pre.take i) ∧
    (pre.get ⟨i, h⟩).2 ∉ (pre.take i).map Prod.snd

instance (pre : List (String × Option String)) : Decidable (cleanBuild pre) := by
  unfold cleanBuild
  exact Nat.decidableBallLT _ _

theorem buildMigrationChainAux_clean :
    ∀ (pre : List (String × Option String)) (acc : Chain),
      (∀ i (h : i < pre.length),
        (pre.get ⟨i, h⟩).1 ∉ keys (acc ++ pre.take i) ∧
        (pre.get ⟨i, h⟩).2 ∉ (acc ++ pre.take i).map Prod.snd) →
      ∀ rest, buildMigrationChainAux acc (pre ++ rest) =
        buildMigrationChainAux (acc ++ pre) rest := by
  intro pre
  induction pre with
  | nil =>
    intro acc _ rest
    rw [List.append_nil]
    rfl
  | cons p t ih =>
    intro acc hinv rest
    obtain ⟨r0, d0⟩ := p
    have h0 : r0 ∉ keys acc ∧ d0 ∉ List.map Prod.snd acc := by
      have h00 := hinv 0 (by simp)
      rw [List.take_zero, List.append_nil] at h00
      exact h00
    show buildMigrationChainAux acc ((r0, d0) :: (t ++ rest)) = _
    simp only [buildMigrationChainAux]
    rw [if_neg h0.1, if_neg h0.2]
    have hinv2 : ∀ i (h : i < t.length),
        (t.get ⟨i, h⟩).1 ∉ keys ((acc ++ [(r0, d0)]) ++ t.take i) ∧
        (t.get ⟨i, h⟩).2 ∉ ((acc ++ [(r0, d0)]) ++ t.take i).map Prod.snd := by
      intro i h
      have := hinv (i + 1) (by simpa using h)
      rwa [List.take_succ_cons, List.append_cons] at this
    rw [ih (acc ++ [(r0, d0)]) hinv2 rest, ← List.append_cons]

/-- C8: consuming pairs in order, the builder fails at the first offending
pair; a pair offends when its revision is already a key
(`DuplicateRevisionError`) or, checked second, when its predecessor value —
`None` included — is already stored (`DuplicateDownRevisionError`). -/
theorem C8_build_first_offender (pre : List (String × Option String))
    (p : String × Option String) (rest : List (String × Option String))
    (hclean : cleanBuild pre)
    (hbad : p.1 ∈ keys pre ∨ p.2 ∈ pre.map Prod.snd) :
    buildMigrationChain (pre ++ p :: rest) =
      .error (if p.1 ∈ keys pre
        then .duplicateRevisionError ("Duplicate revision '" ++ p.1 ++ "' found.")
        else .duplicateDownRevisionError
          ("Duplicate down_revision '" ++ optStr p.2 ++ "' found.")) := by
  unfold buildMigrationChain
  have hinv : ∀ i (h : i < pre.length),
      (pre.get ⟨i, h⟩).1 ∉ keys (([] : Chain) ++ pre.take i) ∧
      (pre.get ⟨i, h⟩).2 ∉ ((([] : Chain) ++ pre.take i)).map Prod.snd := by
    intro i h
    have := hclean i h
    rwa [List.nil_append]
  rw [buildMigrationChainAux_clean pre [] hinv (p :: rest), List.nil_append]
  obtain ⟨r0, d0⟩ := p
  simp only [buildMigrationChainAux]
  by_cases h1 : r0 ∈ keys pre
  · rw [if_pos h1, if_pos h1]
  · rw [if_neg h1, if_neg h1]
    have h2 : d0 ∈ pre.map Prod.snd := by
      rcases hbad with hb | hb
      · exact absurd hb h1
      · exact hb
    rw [if_pos h2]

theorem C8_build_first_offender_witness :
    buildMigrationChain ([("a", none)] ++ ("a", some "x") :: []) =
      .error (if ("a", (some "x" : Option String)).1 ∈ keys [("a", none)]
        then .duplicateRevisionError ("Duplicate revision '" ++ ("a", (some "x" : Option String)).1 ++ "' found.")
        else .duplicateDownRevisionError
          ("Duplicate down_revision '" ++ optStr ("a", (some "x" : Option String)).2 ++ "' found.")) :=
  C8_build_first_offender [("a", none)] ("a", some "x") [] (by decide) (by decide)

/-- C9: validation is deterministic and idempotent: two runs on the same
unchanged mapping produce the same outcome — both succeed, or both raise
an error of the same kind with the same message. -/
theorem C9_idempotent (m : Chain) (r1 r2 : Except MigrationError Unit)
    (h1 : validateMigrationChain m = r1) (h2 : validateMigrationChain m = r2) :
    r1 = r2 := by
  rw [← h1, ← h2]

theorem C9_idempotent_witness :
    (Except.error (MigrationError.multipleInitialMigrationsError
        "Multiple initial migrations found (with None as down_revision): A, B") :
      Except MigrationError Unit) =
      .error (.multipleInitialMigrationsError
        "Multiple initial migrations found (with None as down_revision): A, B") :=
  C9_idempotent [("A", none), ("B", none)] _ _ rfl rfl

/-- C10: the fuelled embedding of the `check_cycle` while-loop returns a
definite answer for every start revision with fuel one more than the number
of keys — each iteration either reports a revisit or appends a fresh node —
so `checkCycle`, and with it `validateMigrationChain`, is total. -/
theorem C10_walk_terminates (m : Chain) (start : String) :
    ∃ r, checkCycleAux m (m.length + 1) [] (some start) = some r ∧
      checkCycle m start = r := by
  have hs := checkCycleAux_top_isSome m start
  cases haux : checkCycleAux m (m.length + 1) [] (some start) with
  | none => rw [haux] at hs; cases hs
  | some r =>
    refine ⟨r, rfl, ?_⟩
    unfold checkCycle
    rw [haux]
    rfl
